import Mathlib

/-!
Verification development for the `chartea` order-book renderer
(package `clob`, file `src/clob/clob.go`).

Modelling conventions:
* Go `float64` prices and volumes are modelled as exact rationals (`ℚ`);
  all inputs considered are finite.  Where the Go code performs float
  arithmetic, the model performs the exact rational computation on the
  numerator and denominator with integer operations, so that every
  definition evaluates by kernel reduction.
* Go `int` is modelled as `Int`.  Go's `/` on int truncates toward zero,
  which is `Int.tdiv`.  Go's conversion `int(f)` of a float truncates
  toward zero when `f` is finite; for NaN or out-of-range values the Go
  specification leaves the result implementation-dependent, which the
  model represents as `none`.
* Go strings here are all ASCII, so Go byte indexing/length coincides with
  character indexing/length; rendered text is modelled as `String` and
  blocks of text as `List String` (one entry per line).
* `lipgloss.Style` values are opaque presentation handles; only the
  width behaviour of `Style.Width(n).Render` (pad right to a minimum
  width, never truncate) is relevant to the text layout and is modelled
  explicitly.
* Go's `sort.Slice` guarantees only that the result is a permutation of
  the input ordered by the supplied comparator; it is documented as not
  stable.  Order-sensitive theorems are therefore stated against that
  contract (`sortBidsContract` / `sortAsksContract`); the executable
  pipeline uses one admissible deterministic implementation.
-/

namespace Chartea

/-- `Order` from clob.go:46-49: one price level.  Field order matches the
Go struct (`Volume`, then `Price`). -/
structure Order where
  Volume : ℚ
  Price : ℚ
deriving DecidableEq, Repr

/-- `ViewOptions` from clob.go:13-16. -/
structure ViewOptions where
  Width : Int
  Height : Int
deriving DecidableEq, Repr

/-- Opaque stand-in for `lipgloss.Style` (clob.go:34-36): the engine never
inspects styles, it only attaches them to output spans. -/
structure Style where
  tag : Nat
deriving DecidableEq, Repr

/-- `Model` from clob.go:19-37, with the embedded `OrderBook` (clob.go:40-43)
flattened into its `Bids`/`Asks` fields exactly as Go embedding does.
`PricePrecision`/`VolumePrecision` are Go `int` fields; the spec invariant
(§3) requires them non-negative, which the model builds in as `Nat`. -/
structure Model where
  width : Int
  height : Int
  Bids : List Order
  Asks : List Order
  Spacing : Int
  PricePrecision : Nat
  VolumePrecision : Nat
  StyleOffBar : Style
  StyleOnBid : Style
  StyleOnAsk : Style
deriving DecidableEq, Repr

/-- `New()` from clob.go:52-66: default configuration.  The three default
styles are distinct opaque handles. -/
def clobNew : Model where
  width := 0
  height := 0
  Bids := []
  Asks := []
  Spacing := 1
  PricePrecision := 2
  VolumePrecision := 2
  StyleOffBar := ⟨0⟩
  StyleOnBid := ⟨1⟩
  StyleOnAsk := ⟨2⟩

/-! ## The sorter (clob.go:126-138)

`sortBids` calls `sort.Slice(m.Bids, less)` with
`less i j := Bids[i].Price > Bids[j].Price`; `sortAsks` uses
`Asks[i].Price < Asks[j].Price`.  Go's `sort.Slice` promises exactly: the
result is a permutation of the input such that for every pair of result
positions `i < j`, `¬ less(j, i)` holds.  It is documented as **not**
guaranteed stable. -/

/-- The postcondition `sort.Slice` establishes for `sortBids`
(clob.go:127-131): pairwise, a later element's price never exceeds an
earlier element's price (prices non-increasing). -/
def sortBidsContract (input output : List Order) : Prop :=
  output.Perm input ∧ output.Pairwise (fun a b => ¬ a.Price < b.Price)

/-- The postcondition `sort.Slice` establishes for `sortAsks`
(clob.go:134-138): prices non-decreasing. -/
def sortAsksContract (input output : List Order) : Prop :=
  output.Perm input ∧ output.Pairwise (fun a b => ¬ b.Price < a.Price)

/-- Insertion of one element into a list that is already ordered by `le`,
keeping it ordered. -/
def insertBy (le : Order → Order → Bool) (o : Order) : List Order → List Order
  | [] => [o]
  | x :: xs => if le x o then x :: insertBy le o xs else o :: x :: xs

/-- One admissible implementation of Go's `sort.Slice` result: insertion
sort by `le`.  The source's actual algorithm (pdqsort) is unspecified
beyond the `sortBidsContract`/`sortAsksContract` postconditions, so every
order-sensitive theorem below is stated against those contracts; this
deterministic choice only drives the executable pipeline. -/
def sortByModel (le : Order → Order → Bool) (l : List Order) : List Order :=
  l.foldr (insertBy le) []

/-- Comparator for the bid side: `a` may precede `b` when
`b.Price ≤ a.Price` (descending by price, clob.go:129). -/
def bidLe (a b : Order) : Bool := decide (b.Price ≤ a.Price)

/-- Comparator for the ask side: ascending by price (clob.go:136). -/
def askLe (a b : Order) : Bool := decide (a.Price ≤ b.Price)

/-- Modelled `m.sortBids()` (clob.go:127-131). -/
def sortBidsModel (l : List Order) : List Order := sortByModel bidLe l

/-- Modelled `m.sortAsks()` (clob.go:134-138). -/
def sortAsksModel (l : List Order) : List Order := sortByModel askLe l

/-! ## Depth truncation (clob.go:141-153) -/

/-- `truncateOrders` from clob.go:141-153, applied to the already-sorted
sides: `if height > 0 { if len(bids) > height { bids = bids[:height] } ... }`. -/
def truncateOrders (bids asks : List Order) (height : Int) :
    List Order × List Order :=
  if 0 < height then
    ((if (bids.length : Int) > height then bids.take height.toNat else bids),
     (if (asks.length : Int) > height then asks.take height.toNat else asks))
  else (bids, asks)

/-! ## Volume scaling (clob.go:156-169) -/

/-- `calculateMaxVolume` from clob.go:156-169: fold over asks first, then
bids, starting from `0.0`, keeping the strictly larger volume. -/
def calculateMaxVolume (bids asks : List Order) : ℚ :=
  bids.foldl (fun acc o => if acc < o.Volume then o.Volume else acc)
    (asks.foldl (fun acc o => if acc < o.Volume then o.Volume else acc) 0)

/-! ## Text primitives -/

/-- A run of `n` spaces. -/
def spacesN (n : Nat) : String := String.mk (List.replicate n ' ')

/-- `strings.Repeat(" ", n)` with a Go `int` count already clamped
non-negative by the caller (clob.go:182-185). -/
def spacesI (n : Int) : String := spacesN n.toNat

/-- Pad `s` on the left with '0' to length `w` (decimal fraction digits). -/
def zeroPad (w : Nat) (s : String) : String :=
  String.mk (List.replicate (w - s.length) '0') ++ s

/-- Round the exact rational `num / den` (`den > 0` in every use) to the
nearest integer, halves away from zero, with integer arithmetic only. -/
def roundHalfAway (num den : Int) : Int :=
  if 0 ≤ num then Int.fdiv (2 * num + den) (2 * den)
  else -(Int.fdiv (2 * (-num) + den) (2 * den))

/-- Fixed-point decimal formatting of the exact rational `num/den`
(`den > 0`) with `prec` fractional digits: the model of
`fmt.Sprintf("%.<prec>f", x)` built by clob.go:174-175 and applied at
clob.go:178-179/206-207.  Go rounds the nearest binary double half to
even; this model rounds the exact value half away from zero.  The two
agree on every value whose scaled value `x·10^prec` is an integer, which
covers all concrete inputs appearing in the theorems below. -/
def formatFixedRaw (prec : Nat) (num den : Int) : String :=
  let n := roundHalfAway (num * (10 : Int) ^ prec) den
  let sign := if n < 0 then "-" else ""
  let a := n.natAbs
  if prec = 0 then sign ++ toString a
  else sign ++ toString (a / 10 ^ prec) ++ "." ++ zeroPad prec (toString (a % 10 ^ prec))

/-- Fixed-point formatting of a rational (model of `%.<prec>f`). -/
def formatFixed (prec : Nat) (q : ℚ) : String := formatFixedRaw prec q.num (q.den : Int)

/-- Character-level take on a string (all engine strings are ASCII, so
this coincides with Go's byte-level slicing). -/
def strTake (s : String) (n : Nat) : String := String.mk (s.data.take n)

/-- Character-level drop on a string. -/
def strDrop (s : String) (n : Nat) : String := String.mk (s.data.drop n)

/-- Go string slicing `s[:n]` and `s[n:]` with a Go `int` index: panics
unless `0 ≤ n ≤ len(s)`, modelled as `none`. -/
def goSplitAt (s : String) (n : Int) : Option (String × String) :=
  if 0 ≤ n ∧ n ≤ (s.length : Int) then some (strTake s n.toNat, strDrop s n.toNat)
  else none

/-- Width behaviour of `lipgloss.Style.Width(w).Render(s)` on one line:
pad on the right with spaces to a minimum of `w` characters, never
truncate (clob.go:111, 190-191, 218-219). -/
def styleRender (w : Int) (s : String) : String :=
  s ++ spacesN (w.toNat - s.length)

/-! ## Bar scaling (clob.go:187-188 and 215-216) -/

/-- The bar cut point `int(float64(width) * (o.Volume / maxVolume))`
(clob.go:187, 215), computed as the exact rational
`width·volume.num·maxVolume.den / (volume.den·maxVolume.num)` and
truncated toward zero (`Int.tdiv`), which is Go's float-to-int conversion
on finite values.  When `maxVolume = 0` the Go code divides by zero,
producing NaN (for `volume = 0`) or `+Inf`; converting either to `int` is
implementation-dependent per the Go specification (`math.MinInt64` on
amd64), so the model returns `none`. -/
def goOnLen (width : Int) (volume maxVolume : ℚ) : Option Int :=
  if maxVolume = 0 then none
  else some (Int.tdiv (width * volume.num * (maxVolume.den : Int))
                      ((volume.den : Int) * maxVolume.num))

/-! ## Row rendering (clob.go:172-225) -/

/-- The composed row text `first ++ padding ++ second`, the padding of
`width - len(priceString) - len(volumeString)` spaces clamped at zero
(clob.go:181-185 and 209-213; the clamp is the `if padding < 0` branch). -/
def rowText (first second : String) (width : Int) : String :=
  let padding0 : Int := width - (first.length : Int) - (second.length : Int)
  first ++ spacesI (if padding0 < 0 then 0 else padding0) ++ second

/-- One bid row (clob.go:177-194): compose `price ++ padding ++ volume`
(padding clamped at zero), compute `onLen`, cut the text at
`offLen = width - onLen`, render the leading piece with `StyleOffBar` at
width `offLen` and the trailing piece with `StyleOnBid` at width `onLen`,
and join left-to-right.  `none` models a panic (slice bounds out of
range) or the implementation-dependent NaN conversion feeding it. -/
def renderRowBid (pricePrec volumePrec : Nat) (width : Int) (maxVolume : ℚ)
    (o : Order) : Option String :=
  (goOnLen width o.Volume maxVolume).bind fun onLen =>
    (goSplitAt (rowText (formatFixed pricePrec o.Price)
        (formatFixed volumePrec o.Volume) width) (width - onLen)).map fun pr =>
      styleRender (width - onLen) pr.1 ++ styleRender onLen pr.2

/-- One ask row (clob.go:205-222): compose `volume ++ padding ++ price`,
cut at `onLen`, render the leading piece with `StyleOnAsk` at width
`onLen` and the trailing piece with `StyleOffBar` at width
`offLen = width - onLen`, and join left-to-right. -/
def renderRowAsk (pricePrec volumePrec : Nat) (width : Int) (maxVolume : ℚ)
    (o : Order) : Option String :=
  (goOnLen width o.Volume maxVolume).bind fun onLen =>
    (goSplitAt (rowText (formatFixed volumePrec o.Volume)
        (formatFixed pricePrec o.Price) width) onLen).map fun pr =>
      styleRender onLen pr.1 ++ styleRender (width - onLen) pr.2

/-- Map a fallible row renderer over the rows, failing if any row fails. -/
def mapOpt (f : α → Option β) : List α → Option (List β)
  | [] => some []
  | x :: xs => (f x).bind fun y => (mapOpt f xs).map fun ys => y :: ys

/-! ## Block layout (lipgloss, as used at clob.go:111-123, 196, 224)

A block of styled text is modelled as its list of lines (styles erased:
the claims below count only visible characters). -/

/-- Width of the widest line of a block. -/
def blockWidth (b : List String) : Nat := b.foldr (fun s acc => max s.length acc) 0

/-- Pad every line of a block on the right to width `w`. -/
def padLinesTo (w : Nat) (b : List String) : List String :=
  b.map (fun s => s ++ spacesN (w - s.length))

/-- `lipgloss.JoinVertical(lipgloss.Left, rows...)` (clob.go:196, 224):
no rows give the empty string (one empty line); otherwise every line is
padded on the right to the widest line. -/
def joinVerticalLeft (rows : List String) : List String :=
  match rows with
  | [] => [""]
  | _ => padLinesTo (blockWidth rows) rows

/-- `renderBids` (clob.go:172-197): render each truncated bid as one row,
top to bottom in list order, and join vertically. -/
def renderBids (pricePrec volumePrec : Nat) (orders : List Order)
    (width : Int) (maxVolume : ℚ) : Option (List String) :=
  (mapOpt (renderRowBid pricePrec volumePrec width maxVolume) orders).map joinVerticalLeft

/-- `renderAsks` (clob.go:200-225). -/
def renderAsks (pricePrec volumePrec : Nat) (orders : List Order)
    (width : Int) (maxVolume : ℚ) : Option (List String) :=
  (mapOpt (renderRowAsk pricePrec volumePrec width maxVolume) orders).map joinVerticalLeft

/-- Extend a block to height `h` by adding empty lines at the bottom
(`lipgloss.Top` alignment). -/
def extendTo (h : Nat) (b : List String) : List String :=
  b ++ List.replicate (h - b.length) ""

/-- `lipgloss.JoinHorizontal(lipgloss.Top, blocks...)` (clob.go:114):
equalize heights by adding empty lines at the bottom, pad every line of a
block on the right to that block's widest line, then concatenate the
blocks line by line. -/
def joinHorizontalTop (blocks : List (List String)) : List String :=
  let h := blocks.foldr (fun b acc => max b.length acc) 0
  let padded := blocks.map (fun b => padLinesTo (blockWidth b) (extendTo h b))
  padded.foldl (fun acc b => acc.zipWith (fun x y => x ++ y) b) (List.replicate h "")

/-- Horizontal half of `lipgloss.Place(w, h, Center, Center, s)`
(clob.go:117-123): when the target width exceeds the content width every
line is surrounded with whitespace totalling `w` columns (larger share on
the right for odd gaps, per `math.Round(gap * 0.5)`); otherwise the text
is returned unchanged. -/
def placeHorizontalCenter (w : Int) (lines : List String) : List String :=
  let cw := blockWidth lines
  if w - (cw : Int) ≤ 0 then lines
  else
    lines.map (fun l =>
      let totalGap := (w - (cw : Int)).toNat + (cw - l.length)
      let split := (totalGap + 1) / 2
      spacesN (totalGap - split) ++ l ++ spacesN split)

/-- Vertical half of `lipgloss.Place` (clob.go:117-123): when the target
height exceeds the content height, blank lines of the content width are
added above and below (larger share below for odd gaps). -/
def placeVerticalCenter (h : Int) (lines : List String) : List String :=
  let ch := lines.length
  if h - (ch : Int) ≤ 0 then lines
  else
    let gap := (h - (ch : Int)).toNat
    let split := (gap + 1) / 2
    let w := blockWidth lines
    List.replicate (gap - split) (spacesN w) ++ lines ++ List.replicate split (spacesN w)

/-! ## The render entry point (clob.go:89-124) -/

/-- `ViewWithOptions` body after the sorts (clob.go:98-124): truncate to
the viewport height, split the width into two columns
(`(Width - Spacing) / 2`, Go truncating division), scale against the
maximum displayed volume, render both sides, join them around the spacer
and center the panel.  `none` models a run aborted by a panic or by the
implementation-dependent NaN-to-int conversion feeding one. -/
def renderPanel (m : Model) (opts : ViewOptions) : Option (List String) :=
  match renderBids m.PricePrecision m.VolumePrecision
      (truncateOrders m.Bids m.Asks opts.Height).1
      (Int.tdiv (opts.Width - m.Spacing) 2)
      (calculateMaxVolume (truncateOrders m.Bids m.Asks opts.Height).1
        (truncateOrders m.Bids m.Asks opts.Height).2),
    renderAsks m.PricePrecision m.VolumePrecision
      (truncateOrders m.Bids m.Asks opts.Height).2
      (Int.tdiv (opts.Width - m.Spacing) 2)
      (calculateMaxVolume (truncateOrders m.Bids m.Asks opts.Height).1
        (truncateOrders m.Bids m.Asks opts.Height).2) with
  | some bidView, some askView =>
    some (placeVerticalCenter opts.Height (placeHorizontalCenter opts.Width
      (joinHorizontalTop [bidView, [styleRender m.Spacing ""], askView])))
  | _, _ => none

/-- `ViewWithOptions`, entry: the `opts.Width == 0` guard (clob.go:90-92,
note `==`, not `≤`), then the in-place sorts (clob.go:95-96), then the
panel pipeline above on the post-sort state. -/
def viewWithOptions (m : Model) (opts : ViewOptions) :
    Model × Option (List String) :=
  if opts.Width = 0 then (m, some ["Initializing..."])
  else
    let m' := { m with Bids := sortBidsModel m.Bids, Asks := sortAsksModel m.Asks }
    (m', renderPanel m' opts)

/-! ## The Stacked (Vertical) orientation

The repository's `main.go`, `_examples/main.go` and README use
`clob.Vertical`, `clob.Horizontal`, `clob.AlignLeft`, `clob.AlignRight`
and `Model.Orientation`/`Model.Alignment`, but the code implementing the
Stacked orientation is not part of `src/clob/clob.go` (which only renders
side by side).  The definitions below are therefore modelled from the
spec, as the status notes in the results record. -/

/-- Modelled from the spec: result shape of the Stacked (`Vertical`)
orientation renderer, whose implementation is missing from
`src/clob/clob.go`.  Spec §4.5: ask rows (top block) above one spread row
above bid rows (bottom block); the field order mirrors that top-to-bottom
layout. -/
structure StackedView where
  askRows : List Order
  spreadRow : String
  bidRows : List Order
deriving DecidableEq, Repr

/-- Modelled from the spec: the highest price on a side (the best bid,
spec §4.5), `0` for an empty side (only used on non-empty sides). -/
def maxPriceQ : List Order → ℚ
  | [] => 0
  | o :: rest => rest.foldl (fun acc x => if acc < x.Price then x.Price else acc) o.Price

/-- Modelled from the spec: the lowest price on a side (the best ask,
spec §4.5), `0` for an empty side (only used on non-empty sides). -/
def minPriceQ : List Order → ℚ
  | [] => 0
  | o :: rest => rest.foldl (fun acc x => if x.Price < acc then x.Price else acc) o.Price

/-- Modelled from the spec (§4.5): the spread row text
`"Spread: " ++ formatted(bestAsk - bestBid)` at `pricePrecision`, blank
when either side is empty; best ask = lowest-price ask and best bid =
highest-price bid, taken from the full pre-truncation book.  The
difference is formatted from its exact cross-multiplied representation
(`formatFixedRaw` is value-based, so this equals formatting
`bestAsk - bestBid`). -/
def stackedSpreadRow (pricePrec : Nat) (bids asks : List Order) : String :=
  if bids.isEmpty || asks.isEmpty then ""
  else
    "Spread: " ++
      formatFixedRaw pricePrec
        ((minPriceQ asks).num * ((maxPriceQ bids).den : Int) -
          (maxPriceQ bids).num * ((minPriceQ asks).den : Int))
        (((minPriceQ asks).den : Int) * ((maxPriceQ bids).den : Int))

/-- Modelled from the spec (§4.2): the last `n` elements of a list,
relative order preserved. -/
def takeLast (n : Nat) (l : List Order) : List Order := l.drop (l.length - n)

/-- Modelled from the spec (§4.1, §4.2, §4.5): the Stacked orientation
pipeline, absent from `src/clob/clob.go`.  Bids are sorted descending by
price and the first `rows` kept; asks are also sorted descending and the
**last** `rows` kept (the `rows` lowest-priced asks, order preserved);
`rows = floor((height-1)/2)` reserves one row for the spread line;
`rows ≤ 0` disables truncation.  The deterministic model sorter stands in
for the sorter exactly as in `viewWithOptions`. -/
def stackedRender (pricePrec : Nat) (bids asks : List Order) (height : Int) :
    StackedView :=
  let bidsS := sortByModel bidLe bids
  let asksS := sortByModel bidLe asks
  let rows : Int := (height - 1) / 2
  ⟨if rows ≤ 0 then asksS else takeLast rows.toNat asksS,
   stackedSpreadRow pricePrec bids asks,
   if rows ≤ 0 then bidsS else bidsS.take rows.toNat⟩

/-! ## Concrete books used by the scenario claims -/

/-- The example bid side from spec §8 (Scenarios A/B) and
`_examples/main.go`: prices 99, 98, 97 with volumes 1, 20, 40. -/
def exampleBids : List Order := [⟨1, 99⟩, ⟨20, 98⟩, ⟨40, 97⟩]

/-- The example ask side from spec §8: prices 100, 101, 102 with volumes
5, 10, 20. -/
def exampleAsks : List Order := [⟨5, 100⟩, ⟨10, 101⟩, ⟨20, 102⟩]

/-- The example model: default configuration with the example book. -/
def exampleModel : Model :=
  { clobNew with Bids := exampleBids, Asks := exampleAsks }

/-! ## Lemma library -/

theorem insertBy_perm (le : Order → Order → Bool) (o : Order) (l : List Order) :
    (insertBy le o l).Perm (o :: l) := by
  induction l with
  | nil => exact List.Perm.refl _
  | cons x xs ih =>
    by_cases h : le x o
    · simpa [insertBy, h] using ((ih.cons x).trans (List.Perm.swap o x xs))
    · simp [insertBy, h]

theorem insertBy_pairwise (le : Order → Order → Bool)
    (htot : ∀ a b, le a b = true ∨ le b a = true)
    (htrans : ∀ a b c, le a b = true → le b c = true → le a c = true)
    (o : Order) (l : List Order)
    (h : l.Pairwise (fun a b => le a b = true)) :
    (insertBy le o l).Pairwise (fun a b => le a b = true) := by
  induction l with
  | nil => simp [insertBy]
  | cons x xs ih =>
    rcases List.pairwise_cons.mp h with ⟨hx, hxs⟩
    by_cases hle : le x o
    · rw [insertBy, if_pos hle]
      refine List.pairwise_cons.mpr ⟨?_, ih hxs⟩
      intro b hb
      have hb' : b ∈ o :: xs := (insertBy_perm le o xs).mem_iff.mp hb
      rcases List.mem_cons.mp hb' with hbo | hbxs
      · subst hbo; exact hle
      · exact hx b hbxs
    · rw [insertBy, if_neg hle]
      have hox : le o x = true := by
        rcases htot x o with h1 | h1
        · exact absurd h1 hle
        · exact h1
      refine List.pairwise_cons.mpr ⟨?_, h⟩
      intro b hb
      rcases List.mem_cons.mp hb with hbx | hbxs
      · subst hbx; exact hox
      · exact htrans o x b hox (hx b hbxs)

theorem sortByModel_perm (le : Order → Order → Bool) (l : List Order) :
    (sortByModel le l).Perm l := by
  induction l with
  | nil => exact List.Perm.refl _
  | cons x xs ih =>
    have : sortByModel le (x :: xs) = insertBy le x (sortByModel le xs) := rfl
    rw [this]
    exact (insertBy_perm le x (sortByModel le xs)).trans (ih.cons x)

theorem sortByModel_pairwise (le : Order → Order → Bool)
    (htot : ∀ a b, le a b = true ∨ le b a = true)
    (htrans : ∀ a b c, le a b = true → le b c = true → le a c = true)
    (l : List Order) :
    (sortByModel le l).Pairwise (fun a b => le a b = true) := by
  induction l with
  | nil => simp [sortByModel]
  | cons x xs ih => exact insertBy_pairwise le htot htrans x _ ih

theorem bidLe_total (a b : Order) : bidLe a b = true ∨ bidLe b a = true := by
  simp only [bidLe, decide_eq_true_eq]
  exact le_total b.Price a.Price

theorem bidLe_trans (a b c : Order) :
    bidLe a b = true → bidLe b c = true → bidLe a c = true := by
  simp only [bidLe, decide_eq_true_eq]
  intro h1 h2
  exact le_trans h2 h1

theorem askLe_total (a b : Order) : askLe a b = true ∨ askLe b a = true := by
  simp only [askLe, decide_eq_true_eq]
  exact le_total a.Price b.Price

theorem askLe_trans (a b c : Order) :
    askLe a b = true → askLe b c = true → askLe a c = true := by
  simp only [askLe, decide_eq_true_eq]
  intro h1 h2
  exact le_trans h1 h2

/-- The deterministic model sorter satisfies the `sort.Slice` contract for
the bid comparator. -/
theorem sortBidsModel_contract (l : List Order) :
    sortBidsContract l (sortBidsModel l) := by
  refine ⟨sortByModel_perm bidLe l, ?_⟩
  have h := sortByModel_pairwise bidLe bidLe_total bidLe_trans l
  exact h.imp (by
    intro a b hab
    simp only [bidLe, decide_eq_true_eq] at hab
    exact not_lt.mpr hab)

/-- The deterministic model sorter satisfies the `sort.Slice` contract for
the ask comparator. -/
theorem sortAsksModel_contract (l : List Order) :
    sortAsksContract l (sortAsksModel l) := by
  refine ⟨sortByModel_perm askLe l, ?_⟩
  have h := sortByModel_pairwise askLe askLe_total askLe_trans l
  exact h.imp (by
    intro a b hab
    simp only [askLe, decide_eq_true_eq] at hab
    exact not_lt.mpr hab)

theorem foldlMax_le_self (l : List Order) (a : ℚ) :
    a ≤ l.foldl (fun acc o => if acc < o.Volume then o.Volume else acc) a := by
  induction l generalizing a with
  | nil => exact le_refl a
  | cons x xs ih =>
    simp only [List.foldl_cons]
    by_cases h : a < x.Volume
    · simp only [if_pos h]
      exact le_trans (le_of_lt h) (ih x.Volume)
    · simp only [if_neg h]
      exact ih a

theorem foldlMax_mem_le (l : List Order) (a : ℚ) (o : Order) (ho : o ∈ l) :
    o.Volume ≤ l.foldl (fun acc o => if acc < o.Volume then o.Volume else acc) a := by
  induction l generalizing a with
  | nil => cases ho
  | cons x xs ih =>
    simp only [List.foldl_cons]
    rcases List.mem_cons.mp ho with h | h
    · subst h
      by_cases hlt : a < o.Volume
      · simp only [if_pos hlt]
        exact foldlMax_le_self xs o.Volume
      · simp only [if_neg hlt]
        exact le_trans (not_lt.mp hlt) (foldlMax_le_self xs a)
    · by_cases hlt : a < x.Volume
      · simp only [if_pos hlt]; exact ih x.Volume h
      · simp only [if_neg hlt]; exact ih a h

theorem foldlMax_attained (l : List Order) (a : ℚ) :
    l.foldl (fun acc o => if acc < o.Volume then o.Volume else acc) a = a ∨
    ∃ o ∈ l, l.foldl (fun acc o => if acc < o.Volume then o.Volume else acc) a = o.Volume := by
  induction l generalizing a with
  | nil => exact Or.inl rfl
  | cons x xs ih =>
    simp only [List.foldl_cons]
    by_cases hlt : a < x.Volume
    · simp only [if_pos hlt]
      rcases ih x.Volume with h | ⟨o, ho, h⟩
      · exact Or.inr ⟨x, List.mem_cons_self x xs, h⟩
      · exact Or.inr ⟨o, List.mem_cons_of_mem x ho, h⟩
    · simp only [if_neg hlt]
      rcases ih a with h | ⟨o, ho, h⟩
      · exact Or.inl h
      · exact Or.inr ⟨o, List.mem_cons_of_mem x ho, h⟩

/-! ### Text and layout lemmas -/

theorem spacesN_length (n : Nat) : (spacesN n).length = n := by
  show (List.replicate n ' ').length = n
  exact List.length_replicate n ' '

theorem styleRender_length (w : Int) (s : String) :
    (styleRender w s).length = max s.length w.toNat := by
  rw [styleRender, String.length_append, spacesN_length]
  omega

theorem strTake_length (s : String) (n : Nat) :
    (strTake s n).length = min n s.length := by
  show (s.data.take n).length = min n s.length
  exact List.length_take n s.data

theorem strDrop_length (s : String) (n : Nat) :
    (strDrop s n).length = s.length - n := by
  show (s.data.drop n).length = s.length - n
  exact List.length_drop n s.data

theorem goSplitAt_some (s : String) (n : Int) (pr : String × String)
    (h : goSplitAt s n = some pr) :
    0 ≤ n ∧ n ≤ (s.length : Int) ∧ pr.1.length = n.toNat ∧
      pr.2.length = s.length - n.toNat := by
  rw [goSplitAt] at h
  split_ifs at h with hc
  · cases h
    refine ⟨hc.1, hc.2, ?_, ?_⟩
    · rw [strTake_length]
      omega
    · rw [strDrop_length]

theorem rowText_length (first second : String) (width : Int) :
    (rowText first second width).length =
      max (first.length + second.length) width.toNat := by
  simp only [rowText, spacesI, String.length_append, spacesN_length]
  split_ifs with h <;> omega

theorem blockWidth_nil : blockWidth [] = 0 := rfl

theorem blockWidth_cons (x : String) (xs : List String) :
    blockWidth (x :: xs) = max x.length (blockWidth xs) := rfl

theorem le_blockWidth (b : List String) (s : String) (hs : s ∈ b) :
    s.length ≤ blockWidth b := by
  induction b with
  | nil => cases hs
  | cons x xs ih =>
    rw [blockWidth_cons]
    rcases List.mem_cons.mp hs with h | h
    · subst h; exact le_max_left _ _
    · exact le_trans (ih h) (le_max_right _ _)

theorem blockWidth_le (b : List String) (w : Nat) (h : ∀ s ∈ b, s.length ≤ w) :
    blockWidth b ≤ w := by
  induction b with
  | nil => exact Nat.zero_le w
  | cons x xs ih =>
    rw [blockWidth_cons]
    exact max_le (h x (List.mem_cons_self x xs))
      (ih fun s hs => h s (List.mem_cons_of_mem x hs))

theorem blockWidth_uniform (b : List String) (c : Nat) (hne : b ≠ [])
    (h : ∀ l ∈ b, l.length = c) : blockWidth b = c := by
  cases b with
  | nil => exact absurd rfl hne
  | cons x xs =>
    refine le_antisymm (blockWidth_le _ c fun s hs => le_of_eq (h s hs)) ?_
    have hx := h x (List.mem_cons_self x xs)
    rw [← hx]
    exact le_blockWidth _ x (List.mem_cons_self x xs)

theorem padLinesTo_mem_length (w : Nat) (b : List String)
    (hble : ∀ s ∈ b, s.length ≤ w) (l : String) (hl : l ∈ padLinesTo w b) :
    l.length = w := by
  rcases List.mem_map.mp hl with ⟨s, hs, rfl⟩
  rw [String.length_append, spacesN_length]
  have := hble s hs
  omega

theorem extendTo_length (h : Nat) (b : List String) :
    (extendTo h b).length = max b.length h := by
  rw [extendTo, List.length_append, List.length_replicate]
  omega

theorem extendTo_mem (h : Nat) (b : List String) (l : String)
    (hl : l ∈ extendTo h b) : l ∈ b ∨ l = "" := by
  rcases List.mem_append.mp hl with h1 | h1
  · exact Or.inl h1
  · exact Or.inr (List.eq_of_mem_replicate h1)

theorem mem_zipWith_append {as bs : List String} {c : String}
    (h : c ∈ List.zipWith (fun x y => x ++ y) as bs) :
    ∃ a ∈ as, ∃ b ∈ bs, c = a ++ b := by
  induction as generalizing bs with
  | nil => simp at h
  | cons a as ih =>
    cases bs with
    | nil => simp at h
    | cons b bs =>
      rw [List.zipWith_cons_cons] at h
      rcases List.mem_cons.mp h with h0 | h1
      · exact ⟨a, List.mem_cons_self a as, b, List.mem_cons_self b bs, h0⟩
      · rcases ih h1 with ⟨a', ha', b', hb', hc⟩
        exact ⟨a', List.mem_cons_of_mem a ha', b', List.mem_cons_of_mem b hb', hc⟩

/-! ### Row and side lemmas -/

theorem renderRowBid_length (pp vp : Nat) (width : Int) (mv : ℚ) (o : Order)
    (row : String) (hw : 0 ≤ width)
    (hfit : (formatFixed pp o.Price).length +
      (formatFixed vp o.Volume).length ≤ width.toNat)
    (h : renderRowBid pp vp width mv o = some row) :
    row.length = width.toNat := by
  rw [renderRowBid] at h
  rcases Option.bind_eq_some.mp h with ⟨onLen, hOn, hMap⟩
  rcases Option.map_eq_some'.mp hMap with ⟨pr, hSp, hRow⟩
  obtain ⟨hn0, hnle, hlen1, hlen2⟩ := goSplitAt_some _ _ _ hSp
  have hout := rowText_length (formatFixed pp o.Price)
    (formatFixed vp o.Volume) width
  rw [hout] at hlen2 hnle
  subst hRow
  rw [String.length_append, styleRender_length, styleRender_length,
    hlen1, hlen2]
  omega

theorem renderRowAsk_length (pp vp : Nat) (width : Int) (mv : ℚ) (o : Order)
    (row : String) (hw : 0 ≤ width)
    (hfit : (formatFixed pp o.Price).length +
      (formatFixed vp o.Volume).length ≤ width.toNat)
    (h : renderRowAsk pp vp width mv o = some row) :
    row.length = width.toNat := by
  rw [renderRowAsk] at h
  rcases Option.bind_eq_some.mp h with ⟨onLen, hOn, hMap⟩
  rcases Option.map_eq_some'.mp hMap with ⟨pr, hSp, hRow⟩
  obtain ⟨hn0, hnle, hlen1, hlen2⟩ := goSplitAt_some _ _ _ hSp
  have hout := rowText_length (formatFixed vp o.Volume)
    (formatFixed pp o.Price) width
  rw [hout] at hlen2 hnle
  subst hRow
  rw [String.length_append, styleRender_length, styleRender_length,
    hlen1, hlen2]
  omega

theorem mapOpt_mem (f : α → Option β) (l : List α) (ys : List β)
    (h : mapOpt f l = some ys) :
    ∀ y ∈ ys, ∃ x ∈ l, f x = some y := by
  induction l generalizing ys with
  | nil =>
    rw [mapOpt] at h
    cases h
    intro y hy
    cases hy
  | cons x xs ih =>
    rw [mapOpt] at h
    rcases Option.bind_eq_some.mp h with ⟨y0, hfx, hMap⟩
    rcases Option.map_eq_some'.mp hMap with ⟨ys0, hxs, hcons⟩
    subst hcons
    intro y hy
    rcases List.mem_cons.mp hy with hy0 | hys
    · subst hy0
      exact ⟨x, List.mem_cons_self x xs, hfx⟩
    · rcases ih ys0 hxs y hys with ⟨x', hx', hfx'⟩
      exact ⟨x', List.mem_cons_of_mem x hx', hfx'⟩

theorem renderBids_view_le (pp vp : Nat) (orders : List Order) (width : Int)
    (mv : ℚ) (view : List String) (hw : 0 ≤ width)
    (hfit : ∀ o ∈ orders, (formatFixed pp o.Price).length +
      (formatFixed vp o.Volume).length ≤ width.toNat)
    (h : renderBids pp vp orders width mv = some view) :
    view ≠ [] ∧ ∀ l ∈ view, l.length ≤ width.toNat := by
  rw [renderBids] at h
  rcases Option.map_eq_some'.mp h with ⟨rows, hRows, hView⟩
  subst hView
  have hrowlen : ∀ r ∈ rows, r.length = width.toNat := by
    intro r hr
    rcases mapOpt_mem _ _ _ hRows r hr with ⟨o, ho, hro⟩
    exact renderRowBid_length pp vp width mv o r hw (hfit o ho) hro
  cases rows with
  | nil => exact ⟨by simp [joinVerticalLeft], by simp [joinVerticalLeft]⟩
  | cons a as =>
    have hjv : joinVerticalLeft (a :: as) =
        padLinesTo (blockWidth (a :: as)) (a :: as) := rfl
    rw [hjv]
    constructor
    · simp [padLinesTo]
    · intro l hl
      have hble : ∀ s ∈ (a :: as), s.length ≤ blockWidth (a :: as) :=
        fun s hs => le_blockWidth _ s hs
      have hlw := padLinesTo_mem_length _ _ hble l hl
      have hbw : blockWidth (a :: as) ≤ width.toNat :=
        blockWidth_le _ _ fun s hs => le_of_eq (hrowlen s hs)
      omega

theorem renderAsks_view_le (pp vp : Nat) (orders : List Order) (width : Int)
    (mv : ℚ) (view : List String) (hw : 0 ≤ width)
    (hfit : ∀ o ∈ orders, (formatFixed pp o.Price).length +
      (formatFixed vp o.Volume).length ≤ width.toNat)
    (h : renderAsks pp vp orders width mv = some view) :
    view ≠ [] ∧ ∀ l ∈ view, l.length ≤ width.toNat := by
  rw [renderAsks] at h
  rcases Option.map_eq_some'.mp h with ⟨rows, hRows, hView⟩
  subst hView
  have hrowlen : ∀ r ∈ rows, r.length = width.toNat := by
    intro r hr
    rcases mapOpt_mem _ _ _ hRows r hr with ⟨o, ho, hro⟩
    exact renderRowAsk_length pp vp width mv o r hw (hfit o ho) hro
  cases rows with
  | nil => exact ⟨by simp [joinVerticalLeft], by simp [joinVerticalLeft]⟩
  | cons a as =>
    have hjv : joinVerticalLeft (a :: as) =
        padLinesTo (blockWidth (a :: as)) (a :: as) := rfl
    rw [hjv]
    constructor
    · simp [padLinesTo]
    · intro l hl
      have hble : ∀ s ∈ (a :: as), s.length ≤ blockWidth (a :: as) :=
        fun s hs => le_blockWidth _ s hs
      have hlw := padLinesTo_mem_length _ _ hble l hl
      have hbw : blockWidth (a :: as) ≤ width.toNat :=
        blockWidth_le _ _ fun s hs => le_of_eq (hrowlen s hs)
      omega

theorem length_le_heightFold (blocks : List (List String)) (b : List String)
    (hb : b ∈ blocks) :
    b.length ≤ blocks.foldr (fun b acc => max b.length acc) 0 := by
  induction blocks with
  | nil => cases hb
  | cons x xs ih =>
    rcases List.mem_cons.mp hb with h | h
    · subst h; exact le_max_left _ _
    · exact le_trans (ih h) (le_max_right _ _)

theorem joinHorizontalTop_fold (blocks : List (List String)) (hgt : Nat)
    (hble : ∀ b ∈ blocks, b.length ≤ hgt) (acc : List String) (s : Nat)
    (hlen : acc.length = hgt) (hacc : ∀ l ∈ acc, l.length = s) :
    ((blocks.map (fun b => padLinesTo (blockWidth b) (extendTo hgt b))).foldl
        (fun acc b => acc.zipWith (fun x y => x ++ y) b) acc).length = hgt ∧
    ∀ l ∈ (blocks.map (fun b => padLinesTo (blockWidth b) (extendTo hgt b))).foldl
        (fun acc b => acc.zipWith (fun x y => x ++ y) b) acc,
      l.length = s + (blocks.map blockWidth).sum := by
  induction blocks generalizing acc s with
  | nil =>
    simp only [List.map_nil, List.foldl_nil, List.sum_nil, Nat.add_zero]
    exact ⟨hlen, hacc⟩
  | cons b bs ih =>
    simp only [List.map_cons, List.foldl_cons, List.sum_cons]
    have hpadlen : (padLinesTo (blockWidth b) (extendTo hgt b)).length = hgt := by
      rw [padLinesTo, List.length_map, extendTo_length]
      have := hble b (List.mem_cons_self b bs)
      omega
    have hpaduni : ∀ l ∈ padLinesTo (blockWidth b) (extendTo hgt b),
        l.length = blockWidth b := by
      refine padLinesTo_mem_length _ _ ?_
      intro t ht
      rcases extendTo_mem hgt b t ht with h1 | h1
      · exact le_blockWidth b t h1
      · subst h1; exact Nat.zero_le _
    have hzlen : (acc.zipWith (fun x y => x ++ y)
        (padLinesTo (blockWidth b) (extendTo hgt b))).length = hgt := by
      rw [List.length_zipWith, hlen, hpadlen]
      omega
    have hzuni : ∀ l ∈ acc.zipWith (fun x y => x ++ y)
        (padLinesTo (blockWidth b) (extendTo hgt b)),
        l.length = s + blockWidth b := by
      intro l hl
      rcases mem_zipWith_append hl with ⟨x, hx, y, hy, rfl⟩
      rw [String.length_append, hacc x hx, hpaduni y hy]
    have hres := ih (fun b' hb' => hble b' (List.mem_cons_of_mem b hb'))
      (acc.zipWith (fun x y => x ++ y)
        (padLinesTo (blockWidth b) (extendTo hgt b)))
      (s + blockWidth b) hzlen hzuni
    refine ⟨hres.1, ?_⟩
    intro l hl
    have := hres.2 l hl
    omega

theorem joinHorizontalTop_spec (blocks : List (List String)) :
    (joinHorizontalTop blocks).length =
      blocks.foldr (fun b acc => max b.length acc) 0 ∧
    ∀ l ∈ joinHorizontalTop blocks,
      l.length = (blocks.map blockWidth).sum := by
  have hmain := joinHorizontalTop_fold blocks
    (blocks.foldr (fun b acc => max b.length acc) 0)
    (fun b hb => length_le_heightFold blocks b hb)
    (List.replicate (blocks.foldr (fun b acc => max b.length acc) 0) "") 0
    (List.length_replicate _ _)
    (fun l hl => by rw [List.eq_of_mem_replicate hl]; rfl)
  rw [joinHorizontalTop]
  refine ⟨hmain.1, ?_⟩
  intro l hl
  have := hmain.2 l hl
  omega

theorem placeHorizontalCenter_spec (w : Int) (lines : List String) (c : Nat)
    (hne : lines ≠ []) (huni : ∀ l ∈ lines, l.length = c) (hcle : c ≤ w.toNat)
    (hw : 0 < w) :
    placeHorizontalCenter w lines ≠ [] ∧
    ∀ l ∈ placeHorizontalCenter w lines, l.length = w.toNat := by
  have hbw : blockWidth lines = c := blockWidth_uniform lines c hne huni
  rw [placeHorizontalCenter, hbw]
  by_cases hgap : w - (c : Int) ≤ 0
  · rw [if_pos hgap]
    have hceq : c = w.toNat := by omega
    exact ⟨hne, fun l hl => (huni l hl).trans hceq⟩
  · rw [if_neg hgap]
    constructor
    · intro habs
      exact hne (List.map_eq_nil_iff.mp habs)
    · intro l hl
      rcases List.mem_map.mp hl with ⟨t, ht, rfl⟩
      rw [String.length_append, String.length_append, spacesN_length,
        spacesN_length, huni t ht]
      omega

theorem placeVerticalCenter_len (h : Int) (lines : List String) (c : Nat)
    (hne : lines ≠ []) (huni : ∀ l ∈ lines, l.length = c) :
    ∀ l ∈ placeVerticalCenter h lines, l.length = c := by
  have hbw : blockWidth lines = c := blockWidth_uniform lines c hne huni
  rw [placeVerticalCenter]
  by_cases hgap : h - (lines.length : Int) ≤ 0
  · rw [if_pos hgap]
    exact huni
  · rw [if_neg hgap]
    intro l hl
    rcases List.mem_append.mp hl with h1 | h1
    · rcases List.mem_append.mp h1 with h2 | h2
      · rw [List.eq_of_mem_replicate h2, spacesN_length, hbw]
      · exact huni l h2
    · rw [List.eq_of_mem_replicate h1, spacesN_length, hbw]

/-- Go's truncating division of a non-negative number by 2 is
non-negative and at most half. -/
theorem colWidth_bound (w s : Int) (_hs : 0 ≤ s) (hsw : s ≤ w) :
    0 ≤ Int.tdiv (w - s) 2 ∧ 2 * Int.tdiv (w - s) 2 + s ≤ w := by
  have hd : (0 : Int) ≤ w - s := by omega
  rw [Int.tdiv_eq_ediv hd (by norm_num)]
  omega

/-! ## Claim theorems -/

/-- C1: the claim says a book whose every visible level has volume 0
renders with `onLen = 0` on every row and never raises.  In the code the
scaling `int(float64(width) * (o.Volume / maxVolume))` has no
`maxVolume == 0` guard: with the one-bid zero-volume book it computes
`0.0/0.0 = NaN` and converts it to `int`, which the Go specification
leaves implementation-dependent (on amd64 it yields `math.MinInt64`, so
`offLen = width - onLen` overflows negative and `output[:offLen]` panics
with a slice bounds error).  The model therefore aborts (`none`) instead
of producing the `onLen = 0` rows the claim demands. -/
theorem c1_zero_volume_render_aborts :
    (viewWithOptions { clobNew with Bids := [⟨0, 99⟩] } ⟨21, 0⟩).2 = none := by
  decide

/-- C2 (Stacked orientation, modelled from the spec because the stacked
code is missing from `src/clob/clob.go`): with the example book and
`height = 7`, the per-side budget is `⌊(7-1)/2⌋ = 3`; the ask block (top)
reads prices 102, 101, 100 top-to-bottom, the spread row shows
`"Spread: 1.00"` (100 − 99 at price precision 2), and the bid block
(bottom) reads 99, 98, 97; and for every book with an empty side the
spread row is blank. -/
theorem c2_stacked_layout_scenario :
    ((stackedRender 2 exampleBids exampleAsks 7).askRows.map Order.Price =
        [102, 101, 100] ∧
      (stackedRender 2 exampleBids exampleAsks 7).spreadRow = "Spread: 1.00" ∧
      (stackedRender 2 exampleBids exampleAsks 7).bidRows.map Order.Price =
        [99, 98, 97]) ∧
    (∀ (p : Nat) (bids asks : List Order) (h : Int),
      bids = [] ∨ asks = [] → (stackedRender p bids asks h).spreadRow = "") := by
  constructor
  · refine ⟨by decide, by decide, by decide⟩
  · intro p bids asks h hempty
    rcases hempty with hb | ha
    · subst hb
      simp [stackedRender, stackedSpreadRow]
    · subst ha
      simp [stackedRender, stackedSpreadRow]

/-- Witness for C2: the blank-spread conclusion applied at the concrete
empty-bid book with height 5. -/
theorem c2_stacked_layout_scenario_witness :
    (([] : List Order) = [] ∨ exampleAsks = []) ∧
    (stackedRender 2 [] exampleAsks 5).spreadRow = "" :=
  ⟨Or.inl rfl, c2_stacked_layout_scenario.2 2 [] exampleAsks 5 (Or.inl rfl)⟩

/-- C4 counterexample: the claim says every viewport width ≤ 0 yields the
placeholder, but the guard at clob.go:90 tests `opts.Width == 0` only:
at width −1 the engine goes on to lay out the (empty) panel and returns a
single spacer line, not `"Initializing..."`. -/
theorem c4_negative_width_not_placeholder_cex :
    (viewWithOptions clobNew ⟨-1, 0⟩).2 ≠ some ["Initializing..."] := by
  decide

/-- C4 as amended: exactly width = 0 short-circuits to the literal
placeholder `"Initializing..."`, with the model state untouched (no sort,
no layout); negative widths instead proceed to panel layout (see the
counterexample). -/
theorem c4_zero_width_placeholder (m : Model) (h : Int) :
    viewWithOptions m ⟨0, h⟩ = (m, some ["Initializing..."]) := rfl

/-- C5 counterexample: the claim says `onLen = 0` when `maxVolume = 0`;
the code instead divides by zero there (no guard exists, and no clamp of
`onLen` into `[0, width]` exists anywhere), which the model records as an
implementation-dependent abort rather than `0`. -/
theorem c5_onLen_maxvolume_zero_cex : goOnLen 10 0 0 ≠ some 0 := by decide

/-- C5 as amended: for a displayed level with `0 ≤ volume ≤ maxVolume`,
`0 < maxVolume` and column width ≥ 0 — the only combinations the pipeline
feeds it (`maxVolume` is the maximum displayed volume) — the unclamped
computation already satisfies
`onLen = ⌊width · volume / maxVolume⌋ ∈ [0, width]`
(`offLen = width - onLen` is literal in the code, clob.go:188/216); when
`maxVolume = 0` the code divides by zero instead of producing 0, and no
defensive clamp exists. -/
theorem c5_onLen_floor_bounds (width : Int) (volume maxVolume : ℚ)
    (hw : 0 ≤ width) (hv : 0 ≤ volume) (hvm : volume ≤ maxVolume)
    (hm : 0 < maxVolume) :
    goOnLen width volume maxVolume =
        some ⌊(width : ℚ) * (volume / maxVolume)⌋ ∧
      0 ≤ ⌊(width : ℚ) * (volume / maxVolume)⌋ ∧
      ⌊(width : ℚ) * (volume / maxVolume)⌋ ≤ width := by
  have hmne : maxVolume ≠ 0 := ne_of_gt hm
  have hvnum : 0 ≤ volume.num := Rat.num_nonneg.mpr hv
  have hmnum : 0 < maxVolume.num := Rat.num_pos.mpr hm
  have hvden : (0 : Int) < (volume.den : Int) := by
    exact_mod_cast volume.den_pos
  have hmden : (0 : Int) < (maxVolume.den : Int) := by
    exact_mod_cast maxVolume.den_pos
  have ha : 0 ≤ width * volume.num * (maxVolume.den : Int) :=
    mul_nonneg (mul_nonneg hw hvnum) hmden.le
  have hb : 0 < (volume.den : Int) * maxVolume.num := mul_pos hvden hmnum
  have hkey : Int.tdiv (width * volume.num * (maxVolume.den : Int))
      ((volume.den : Int) * maxVolume.num) =
      ⌊(width : ℚ) * (volume / maxVolume)⌋ := by
    rw [Int.tdiv_eq_ediv ha hb.le]
    have hbt : (((((volume.den : Int) * maxVolume.num).toNat : Nat)) : Int) =
        (volume.den : Int) * maxVolume.num := Int.toNat_of_nonneg hb.le
    have hfl := Rat.floor_intCast_div_natCast
      (width * volume.num * (maxVolume.den : Int))
      ((volume.den : Int) * maxVolume.num).toNat
    rw [hbt] at hfl
    rw [← hfl]
    congr 1
    have hx : ((((volume.den : Int) * maxVolume.num).toNat : ℚ)) =
        (((volume.den : Int) * maxVolume.num : Int) : ℚ) := by
      exact_mod_cast congrArg (fun z : Int => (z : ℚ)) hbt
    rw [hx]
    have hvq : volume * ((volume.den : ℚ)) = ((volume.num : ℚ)) :=
      Rat.mul_den_eq_num volume
    have hmq : maxVolume * ((maxVolume.den : ℚ)) = ((maxVolume.num : ℚ)) :=
      Rat.mul_den_eq_num maxVolume
    have hden1 : ((volume.den : ℚ)) ≠ 0 := by positivity
    have hden2 : ((maxVolume.den : ℚ)) ≠ 0 := by positivity
    push_cast
    field_simp
    rw [← hvq, ← hmq]
    ring
  refine ⟨by rw [goOnLen, if_neg hmne, hkey], ?_, ?_⟩
  · refine Int.floor_nonneg.mpr ?_
    have h0 : (0 : ℚ) ≤ volume / maxVolume := div_nonneg hv hm.le
    have hwq : (0 : ℚ) ≤ (width : ℚ) := by exact_mod_cast hw
    exact mul_nonneg hwq h0
  · have hle1 : volume / maxVolume ≤ 1 := (div_le_one hm).mpr hvm
    have hwq : (0 : ℚ) ≤ (width : ℚ) := by exact_mod_cast hw
    have hx : (width : ℚ) * (volume / maxVolume) ≤ (width : ℚ) :=
      mul_le_of_le_one_right hwq hle1
    have hfin := Int.floor_le_floor hx
    rwa [Int.floor_intCast] at hfin

/-- Witness for C5: the amended statement at width 10, volume 3,
maxVolume 4 (onLen = ⌊7.5⌋ = 7). -/
theorem c5_onLen_floor_bounds_witness :
    ((0 : Int) ≤ 10 ∧ (0 : ℚ) ≤ 3 ∧ (3 : ℚ) ≤ 4 ∧ (0 : ℚ) < 4) ∧
    (goOnLen 10 3 4 = some ⌊(10 : ℚ) * ((3 : ℚ) / 4)⌋ ∧
      0 ≤ ⌊(10 : ℚ) * ((3 : ℚ) / 4)⌋ ∧ ⌊(10 : ℚ) * ((3 : ℚ) / 4)⌋ ≤ 10) :=
  ⟨⟨by decide, by decide, by decide, by decide⟩,
    c5_onLen_floor_bounds 10 3 4 (by decide) (by decide) (by decide) (by decide)⟩

/-- C8: `truncateOrders` passes both sides through untouched when
`height ≤ 0`, and otherwise keeps exactly the first
`min(side length, height)` elements of each (already sorted) side — a
prefix, never padded with synthetic rows. -/
theorem c8_truncate_spec (bids asks : List Order) (height : Int) :
    (height ≤ 0 → truncateOrders bids asks height = (bids, asks)) ∧
    (0 < height →
      truncateOrders bids asks height =
        (bids.take height.toNat, asks.take height.toNat) ∧
      (bids.take height.toNat).length = min bids.length height.toNat ∧
      (asks.take height.toNat).length = min asks.length height.toNat) := by
  constructor
  · intro hle
    simp [truncateOrders, not_lt.mpr hle]
  · intro hpos
    refine ⟨?_, ?_, ?_⟩
    · rw [truncateOrders, if_pos hpos]
      have hbids : (if (bids.length : Int) > height then bids.take height.toNat
          else bids) = bids.take height.toNat := by
        by_cases hlen : (bids.length : Int) > height
        · rw [if_pos hlen]
        · rw [if_neg hlen]
          exact (List.take_of_length_le (by omega)).symm
      have hasks : (if (asks.length : Int) > height then asks.take height.toNat
          else asks) = asks.take height.toNat := by
        by_cases hlen : (asks.length : Int) > height
        · rw [if_pos hlen]
        · rw [if_neg hlen]
          exact (List.take_of_length_le (by omega)).symm
      rw [hbids, hasks]
    · rw [List.length_take]; omega
    · rw [List.length_take]; omega

/-- Witness for C8: both branches exercised at the concrete example book
(height 2 truncates the three bids/asks to two; height 0 passes them
through). -/
theorem c8_truncate_spec_witness :
    ((0 : Int) < 2 ∧
      truncateOrders exampleBids exampleAsks 2 =
        (exampleBids.take 2, exampleAsks.take 2)) ∧
    ((0 : Int) ≤ 0 ∧
      truncateOrders exampleBids exampleAsks 0 = (exampleBids, exampleAsks)) :=
  ⟨⟨by decide, ((c8_truncate_spec exampleBids exampleAsks 2).2 (by decide)).1⟩,
    ⟨le_refl 0, (c8_truncate_spec exampleBids exampleAsks 0).1 (le_refl 0)⟩⟩

/-- C9: for non-negative volumes, `calculateMaxVolume` is an upper bound
of every visible volume, is 0 when both sides are empty, and is attained
by some visible level whenever one exists — i.e. it is the maximum volume
over the union of the visible bid and ask levels. -/
theorem c9_max_volume_spec (bids asks : List Order)
    (h : ∀ o ∈ bids ++ asks, 0 ≤ o.Volume) :
    (∀ o ∈ bids ++ asks, o.Volume ≤ calculateMaxVolume bids asks) ∧
    ((bids = [] ∧ asks = []) → calculateMaxVolume bids asks = 0) ∧
    ((bids ≠ [] ∨ asks ≠ []) →
      ∃ o ∈ bids ++ asks, calculateMaxVolume bids asks = o.Volume) := by
  have hub : ∀ o ∈ bids ++ asks, o.Volume ≤ calculateMaxVolume bids asks := by
    intro o ho
    rcases List.mem_append.mp ho with hob | hoa
    · exact foldlMax_mem_le bids _ o hob
    · exact le_trans (foldlMax_mem_le asks 0 o hoa) (foldlMax_le_self bids _)
  refine ⟨hub, ?_, ?_⟩
  · rintro ⟨hb, ha⟩
    subst hb; subst ha; rfl
  · intro hne
    rcases foldlMax_attained bids
        (asks.foldl (fun acc o => if acc < o.Volume then o.Volume else acc) 0) with
      hEq | ⟨o, ho, hEq⟩
    · rcases foldlMax_attained asks 0 with hEq2 | ⟨o, ho, hEq2⟩
      · have hzero : calculateMaxVolume bids asks = 0 := by
          rw [calculateMaxVolume, hEq, hEq2]
        rcases hne with hb | ha
        · rcases List.exists_mem_of_ne_nil bids hb with ⟨b, hbmem⟩
          have hmem : b ∈ bids ++ asks := List.mem_append.mpr (Or.inl hbmem)
          refine ⟨b, hmem, ?_⟩
          have h1 := hub b hmem
          have h2 := h b hmem
          rw [hzero] at h1 ⊢
          exact le_antisymm h2 h1
        · rcases List.exists_mem_of_ne_nil asks ha with ⟨a, hamem⟩
          have hmem : a ∈ bids ++ asks := List.mem_append.mpr (Or.inr hamem)
          refine ⟨a, hmem, ?_⟩
          have h1 := hub a hmem
          have h2 := h a hmem
          rw [hzero] at h1 ⊢
          exact le_antisymm h2 h1
      · refine ⟨o, List.mem_append.mpr (Or.inr ho), ?_⟩
        rw [calculateMaxVolume, hEq, hEq2]
    · exact ⟨o, List.mem_append.mpr (Or.inl ho), by rw [calculateMaxVolume]; exact hEq⟩

/-- Both components of `truncateOrders` are sublists of the corresponding
input side (either the side itself or a prefix of it). -/
theorem truncateOrders_fst_sublist (bids asks : List Order) (height : Int) :
    (truncateOrders bids asks height).1.Sublist bids := by
  by_cases h : 0 < height
  · by_cases h2 : (bids.length : Int) > height
    · have heq : (truncateOrders bids asks height).1 = bids.take height.toNat := by
        simp [truncateOrders, h, h2]
      rw [heq]; exact List.take_sublist _ _
    · have heq : (truncateOrders bids asks height).1 = bids := by
        simp [truncateOrders, h, h2]
      rw [heq]
  · have heq : (truncateOrders bids asks height).1 = bids := by
      simp [truncateOrders, h]
    rw [heq]

theorem truncateOrders_snd_sublist (bids asks : List Order) (height : Int) :
    (truncateOrders bids asks height).2.Sublist asks := by
  by_cases h : 0 < height
  · by_cases h2 : (asks.length : Int) > height
    · have heq : (truncateOrders bids asks height).2 = asks.take height.toNat := by
        simp [truncateOrders, h, h2]
      rw [heq]; exact List.take_sublist _ _
    · have heq : (truncateOrders bids asks height).2 = asks := by
        simp [truncateOrders, h, h2]
      rw [heq]
  · have heq : (truncateOrders bids asks height).2 = asks := by
      simp [truncateOrders, h]
    rw [heq]

/-- C3 counterexample: the claim asserts the pre-render sort is stable
(equal-priced levels keep their input order).  The code sorts with
`sort.Slice` (clob.go:128, 135), whose documentation states the sort is
not guaranteed to be stable, i.e. the code guarantees only
`sortBidsContract`; and that contract admits an output in which two
equal-priced bids swap their input order, so stability is not a property
the code provides. -/
theorem c3_sort_not_stable_cex :
    sortBidsContract [⟨1, 100⟩, ⟨2, 100⟩] [⟨2, 100⟩, ⟨1, 100⟩] ∧
    ([⟨2, 100⟩, ⟨1, 100⟩] : List Order).filter (fun o => decide (o.Price = 100)) ≠
      ([⟨1, 100⟩, ⟨2, 100⟩] : List Order).filter (fun o => decide (o.Price = 100)) := by
  refine ⟨⟨by decide, by decide⟩, by decide⟩

/-- C3 as amended: the sort applied before rendering yields a
price-ordered permutation of the caller-supplied side (bids
non-increasing, asks non-decreasing) — the full `sort.Slice` guarantee —
but levels of equal price may appear in either relative order; the
deterministic model sorter satisfies that contract on every input. -/
theorem c3_sort_price_ordered_perm (bids asks : List Order) :
    sortBidsContract bids (sortBidsModel bids) ∧
    sortAsksContract asks (sortAsksModel asks) :=
  ⟨sortBidsModel_contract bids, sortAsksModel_contract asks⟩

/-- C7: under the `sort.Slice` contract, the displayed (post-truncation)
bid prices are non-increasing top-to-bottom and the displayed ask prices
are non-decreasing top-to-bottom, for every book and every viewport
height; the row renderers emit rows in exactly this list order
(clob.go:177, 205). -/
theorem c7_rendered_sides_price_ordered (m : Model) (height : Int)
    (bids' asks' : List Order)
    (hb : sortBidsContract m.Bids bids')
    (ha : sortAsksContract m.Asks asks') :
    ((truncateOrders bids' asks' height).1.map Order.Price).Pairwise
      (fun p q => q ≤ p) ∧
    ((truncateOrders bids' asks' height).2.map Order.Price).Pairwise
      (fun p q => p ≤ q) := by
  constructor
  · refine List.pairwise_map.mpr ?_
    have hp :=
      List.Pairwise.sublist (truncateOrders_fst_sublist bids' asks' height) hb.2
    exact hp.imp (fun hab => not_lt.mp hab)
  · refine List.pairwise_map.mpr ?_
    have hp :=
      List.Pairwise.sublist (truncateOrders_snd_sublist bids' asks' height) ha.2
    exact hp.imp (fun hab => not_lt.mp hab)

/-- Witness for C7: the example book (already in display order, hence a
contract-satisfying sort output) truncated to height 2. -/
theorem c7_rendered_sides_price_ordered_witness :
    sortBidsContract exampleModel.Bids exampleBids ∧
    sortAsksContract exampleModel.Asks exampleAsks ∧
    (((truncateOrders exampleBids exampleAsks 2).1.map Order.Price).Pairwise
        (fun p q => q ≤ p) ∧
      ((truncateOrders exampleBids exampleAsks 2).2.map Order.Price).Pairwise
        (fun p q => p ≤ q)) :=
  ⟨⟨by decide, by decide⟩, ⟨by decide, by decide⟩,
    c7_rendered_sides_price_ordered exampleModel 2 exampleBids exampleAsks
      ⟨by decide, by decide⟩ ⟨by decide, by decide⟩⟩

/-- C10: a render call reorders the model's stored `Bids`/`Asks` in place
(afterwards they hold a contract-sorted version of the caller's lists,
which the state-passing model exposes as the returned model, the change
Go makes visible through any alias of the same backing arrays), the
multiset of levels on each side is preserved, and no other field of the
model — cached width/height, spacing, precisions, styles — is modified by
rendering; when the zero-width guard fires the state is returned
untouched (and the permutation is the identity). -/
theorem c10_render_frame (m : Model) (opts : ViewOptions) :
    ((viewWithOptions m opts).1.Bids.Perm m.Bids ∧
      (viewWithOptions m opts).1.Asks.Perm m.Asks) ∧
    ((viewWithOptions m opts).1.width = m.width ∧
      (viewWithOptions m opts).1.height = m.height ∧
      (viewWithOptions m opts).1.Spacing = m.Spacing ∧
      (viewWithOptions m opts).1.PricePrecision = m.PricePrecision ∧
      (viewWithOptions m opts).1.VolumePrecision = m.VolumePrecision ∧
      (viewWithOptions m opts).1.StyleOffBar = m.StyleOffBar ∧
      (viewWithOptions m opts).1.StyleOnBid = m.StyleOnBid ∧
      (viewWithOptions m opts).1.StyleOnAsk = m.StyleOnAsk) ∧
    (opts.Width ≠ 0 →
      sortBidsContract m.Bids (viewWithOptions m opts).1.Bids ∧
      sortAsksContract m.Asks (viewWithOptions m opts).1.Asks) := by
  by_cases h : opts.Width = 0
  · rw [viewWithOptions, if_pos h]
    exact ⟨⟨List.Perm.refl _, List.Perm.refl _⟩,
      ⟨rfl, rfl, rfl, rfl, rfl, rfl, rfl, rfl⟩,
      fun hne => absurd h hne⟩
  · rw [viewWithOptions, if_neg h]
    exact ⟨⟨sortByModel_perm _ _, sortByModel_perm _ _⟩,
      ⟨rfl, rfl, rfl, rfl, rfl, rfl, rfl, rfl⟩,
      fun _ => ⟨sortBidsModel_contract m.Bids, sortAsksModel_contract m.Asks⟩⟩

/-- Witness for C10: the post-render model at the example book and a
21-wide viewport holds a contract-sorted permutation of the stored
sides. -/
theorem c10_render_frame_witness :
    ((21 : Int) ≠ 0) ∧
    (sortBidsContract exampleModel.Bids
        (viewWithOptions exampleModel ⟨21, 0⟩).1.Bids ∧
      sortAsksContract exampleModel.Asks
        (viewWithOptions exampleModel ⟨21, 0⟩).1.Asks) :=
  ⟨by decide, (c10_render_frame exampleModel ⟨21, 0⟩).2.2 (by decide)⟩

/-- Witness for C9: the concrete example book (maximum visible volume
40, attained by the bid at price 97). -/
theorem c9_max_volume_spec_witness :
    (Order.mk 40 97) ∈ exampleBids ++ exampleAsks ∧
    (Order.mk 40 97).Volume ≤ calculateMaxVolume exampleBids exampleAsks :=
  ⟨by decide,
    (c9_max_volume_spec exampleBids exampleAsks (by decide)).1 ⟨40, 97⟩ (by decide)⟩

/-- Helper for C6: whenever the panel pipeline succeeds on a model whose
every formatted price/volume pair fits inside the computed column width
(and `0 ≤ Spacing ≤ Width`, `0 < Width`), every line of the panel is
exactly `Width` characters. -/
theorem renderPanel_lines (mm : Model) (opts : ViewOptions) (lines : List String)
    (hw : 0 < opts.Width) (hs0 : 0 ≤ mm.Spacing) (hsw : mm.Spacing ≤ opts.Width)
    (hfitB : ∀ o ∈ mm.Bids,
      (formatFixed mm.PricePrecision o.Price).length +
        (formatFixed mm.VolumePrecision o.Volume).length ≤
        (Int.tdiv (opts.Width - mm.Spacing) 2).toNat)
    (hfitA : ∀ o ∈ mm.Asks,
      (formatFixed mm.PricePrecision o.Price).length +
        (formatFixed mm.VolumePrecision o.Volume).length ≤
        (Int.tdiv (opts.Width - mm.Spacing) 2).toNat)
    (hok : renderPanel mm opts = some lines) :
    ∀ l ∈ lines, l.length = opts.Width.toNat := by
  obtain ⟨hcol0, hcolble⟩ := colWidth_bound opts.Width mm.Spacing hs0 hsw
  rw [renderPanel] at hok
  cases hB : renderBids mm.PricePrecision mm.VolumePrecision
      (truncateOrders mm.Bids mm.Asks opts.Height).1
      (Int.tdiv (opts.Width - mm.Spacing) 2)
      (calculateMaxVolume (truncateOrders mm.Bids mm.Asks opts.Height).1
        (truncateOrders mm.Bids mm.Asks opts.Height).2) with
  | none =>
    rw [hB] at hok
    exact absurd hok (by simp)
  | some bidView =>
    cases hA : renderAsks mm.PricePrecision mm.VolumePrecision
        (truncateOrders mm.Bids mm.Asks opts.Height).2
        (Int.tdiv (opts.Width - mm.Spacing) 2)
        (calculateMaxVolume (truncateOrders mm.Bids mm.Asks opts.Height).1
          (truncateOrders mm.Bids mm.Asks opts.Height).2) with
    | none =>
      rw [hB, hA] at hok
      exact absurd hok (by simp)
    | some askView =>
      rw [hB, hA] at hok
      replace hok : some (placeVerticalCenter opts.Height (placeHorizontalCenter
          opts.Width (joinHorizontalTop
            [bidView, [styleRender mm.Spacing ""], askView]))) = some lines := hok
      have hlines := Option.some.inj hok
      obtain ⟨hBne, hBle⟩ := renderBids_view_le _ _ _ _ _ bidView hcol0
        (fun o ho => hfitB o
          ((truncateOrders_fst_sublist mm.Bids mm.Asks opts.Height).subset ho)) hB
      obtain ⟨hAne, hAle⟩ := renderAsks_view_le _ _ _ _ _ askView hcol0
        (fun o ho => hfitA o
          ((truncateOrders_snd_sublist mm.Bids mm.Asks opts.Height).subset ho)) hA
      have hbwB : blockWidth bidView ≤ (Int.tdiv (opts.Width - mm.Spacing) 2).toNat :=
        blockWidth_le _ _ hBle
      have hbwA : blockWidth askView ≤ (Int.tdiv (opts.Width - mm.Spacing) 2).toNat :=
        blockWidth_le _ _ hAle
      have hspacer : blockWidth [styleRender mm.Spacing ""] = mm.Spacing.toNat := by
        rw [blockWidth_cons, blockWidth_nil, styleRender_length]
        simp
      obtain ⟨hjlen, hjuni⟩ :=
        joinHorizontalTop_spec [bidView, [styleRender mm.Spacing ""], askView]
      have hcwle : ([bidView, [styleRender mm.Spacing ""], askView].map
          blockWidth).sum ≤ opts.Width.toNat := by
        simp only [List.map_cons, List.map_nil, List.sum_cons, List.sum_nil,
          hspacer]
        omega
      have hjne : joinHorizontalTop [bidView, [styleRender mm.Spacing ""],
          askView] ≠ [] := by
        have h1 : 1 ≤ (joinHorizontalTop [bidView, [styleRender mm.Spacing ""],
            askView]).length := by
          rw [hjlen]
          have hmem := length_le_heightFold
            [bidView, [styleRender mm.Spacing ""], askView]
            [styleRender mm.Spacing ""] (by simp)
          simp
        intro habs
        rw [habs] at h1
        simp at h1
      obtain ⟨hpne, hpuni⟩ := placeHorizontalCenter_spec opts.Width _
        (([bidView, [styleRender mm.Spacing ""], askView].map blockWidth).sum)
        hjne hjuni hcwle hw
      subst hlines
      exact fun l hl => placeVerticalCenter_len opts.Height _ _ hpne hpuni l hl

/-- C6 counterexample: the claim says every rendered row is exactly the
requested width even when price and volume strings overflow the column.
With one bid of price 100 and volume 20 at width 9 (column width 4) the
formatted strings "100.00" and "20.00" are 11 characters together;
`lipgloss.Style.Width` only pads (it never truncates) and the final
placement does not clip, so the single output row is 12 characters, not
9. -/
theorem c6_row_width_overflow_cex :
    (viewWithOptions { clobNew with Bids := [⟨20, 100⟩] } ⟨9, 0⟩).2 =
      some ["100.0020.00 "] ∧ ("100.0020.00 " : String).length ≠ 9 := by
  exact ⟨by decide, by decide⟩

/-- C6 as amended: every output row is exactly the requested width
provided each displayed level's formatted price and volume fit within
the column width (`len(price) + len(volume) ≤ columnWidth`); overflowing
rows instead widen the output beyond the requested width (see the
counterexample).  Stated for any render that completes
(`viewWithOptions` returning a panel), with `0 < Width` and
`0 ≤ Spacing ≤ Width`. -/
theorem c6_row_width_exact (m : Model) (opts : ViewOptions) (lines : List String)
    (hw : 0 < opts.Width) (hs0 : 0 ≤ m.Spacing) (hsw : m.Spacing ≤ opts.Width)
    (hfitB : ∀ o ∈ m.Bids,
      (formatFixed m.PricePrecision o.Price).length +
        (formatFixed m.VolumePrecision o.Volume).length ≤
        (Int.tdiv (opts.Width - m.Spacing) 2).toNat)
    (hfitA : ∀ o ∈ m.Asks,
      (formatFixed m.PricePrecision o.Price).length +
        (formatFixed m.VolumePrecision o.Volume).length ≤
        (Int.tdiv (opts.Width - m.Spacing) 2).toNat)
    (hok : (viewWithOptions m opts).2 = some lines) :
    lines.all (fun l => l.length == opts.Width.toNat) = true := by
  have hwne : opts.Width ≠ 0 := by omega
  rw [viewWithOptions, if_neg hwne] at hok
  replace hok : renderPanel
      { m with Bids := sortBidsModel m.Bids, Asks := sortAsksModel m.Asks }
      opts = some lines := hok
  have hfitB' : ∀ o ∈ sortBidsModel m.Bids,
      (formatFixed m.PricePrecision o.Price).length +
        (formatFixed m.VolumePrecision o.Volume).length ≤
        (Int.tdiv (opts.Width - m.Spacing) 2).toNat :=
    fun o ho => hfitB o ((sortByModel_perm bidLe m.Bids).mem_iff.mp ho)
  have hfitA' : ∀ o ∈ sortAsksModel m.Asks,
      (formatFixed m.PricePrecision o.Price).length +
        (formatFixed m.VolumePrecision o.Volume).length ≤
        (Int.tdiv (opts.Width - m.Spacing) 2).toNat :=
    fun o ho => hfitA o ((sortByModel_perm askLe m.Asks).mem_iff.mp ho)
  have hmain := renderPanel_lines
    { m with Bids := sortBidsModel m.Bids, Asks := sortAsksModel m.Asks }
    opts lines hw hs0 hsw hfitB' hfitA' hok
  rw [List.all_eq_true]
  intro l hl
  rw [beq_iff_eq]
  exact hmain l hl

/-- Witness for C6: the amended statement at a one-level book fitting the
10-character columns of a 21-wide viewport. -/
theorem c6_row_width_exact_witness :
    ((0 : Int) < 21 ∧
      (0 : Int) ≤ ({ clobNew with Bids := [⟨1, 99⟩], Asks := [⟨5, 100⟩] } : Model).Spacing ∧
      (viewWithOptions { clobNew with Bids := [⟨1, 99⟩], Asks := [⟨5, 100⟩] }
          ⟨21, 0⟩).2 = some ["99.00 1.00 5.00100.00"]) ∧
    (["99.00 1.00 5.00100.00"].all
      (fun l => l.length == (21 : Int).toNat) = true) :=
  ⟨⟨by decide, by decide, by decide⟩,
    c6_row_width_exact { clobNew with Bids := [⟨1, 99⟩], Asks := [⟨5, 100⟩] }
      ⟨21, 0⟩ ["99.00 1.00 5.00100.00"] (by decide) (by decide) (by decide)
      (by decide) (by decide) (by decide)⟩

end Chartea
